import Mathlib

/-!
Verification of the cmarkfmt renderer (src/lib.rs).

This file gives a shallow embedding of the event-to-text renderer of the
cmarkfmt library.  The renderer consumes an ordered stream of
pulldown-cmark events together with a list of reference definitions and
writes formatted markdown to an output sink.  The embedding mirrors the
source as follows.

* The tokenizer (pulldown-cmark) is an external dependency, so events and
  reference definitions are inputs of the embedded renderer, exactly as
  Context::format receives them.
* The output sink is modelled as the list of written lines: the only
  writes the source ever performs on the sink are, inside
  Context::write_line, writer.write_str(buf) immediately followed by
  writer.write_char of a line feed, so the sink contents are always the
  concatenation of (line, "\n") pairs.  renderOutput rebuilds the sink
  string; writeChunks rebuilds the exact chunk sequence handed to the
  sink, and format_cmark_writer replays it against an arbitrary fallible
  sink (the renderer's control flow does not depend on the sink except by
  aborting on the first failed write, which feedSink models).
* Options (code_fmt, blockquote, emphasis, unordered_list) are never
  mutated by the source, so they are passed as plain parameters (cf, bq,
  em, ul) rather than stored in the context record.
* Rust usize arithmetic appears only as the subtractions w - 2 and
  w - width in the table renderer; both are modelled by truncated Nat
  subtraction, and every reachable call site satisfies w being at least
  the subtrahend, where the Rust code would otherwise panic rather than
  wrap.
* Rust char::is_whitespace is modelled by Char.isWhitespace (space, tab,
  carriage return, line feed); every character the renderer itself can
  put next to a line end is in this common subset.
-/

namespace Cmarkfmt

/-- Helper: a run of n space characters, as written by the padding loop. -/
def spaces (n : Nat) : String := ⟨List.replicate n ' '⟩

/-- Model of Rust str::trim_end: drop trailing whitespace characters. -/
def trimEnd (s : String) : String := ⟨(s.data.reverse.dropWhile Char.isWhitespace).reverse⟩

/-- Splitting of a character list on line feeds (semantics of str::split
with a line feed pattern, written structurally). -/
def splitNlChars : List Char → List String
  | [] => [""]
  | c :: cs =>
    match splitNlChars cs with
    | [] => []
    | h :: t =>
      if c == '\n' then "" :: h :: t else (⟨c :: h.data⟩ : String) :: t

/-- Model of Rust str::lines: split on line feeds, one trailing line feed
produces no final empty line, and a carriage return at the end of a line is
stripped. -/
def rustLines (s : String) : List String :=
  if s.isEmpty then []
  else
    ((splitNlChars
        (if s.data.getLast? == some '\n' then s.data.dropLast else s.data)).map
      (fun l => if l.data.getLast? == some '\r' then (⟨l.data.dropLast⟩ : String) else l))

/-- True when a string starts with three backticks (str::starts_with with a
triple backtick pattern). -/
def startsTicks (s : String) : Bool :=
  match s.data with
  | c1 :: c2 :: c3 :: _ => c1 == '\x60' && c2 == '\x60' && c3 == '\x60'
  | _ => false

/-- Byte-lexicographic strict order on character lists; on UTF-8 data this
agrees with Rust String::cmp. -/
def lexLt : List Char → List Char → Bool
  | [], [] => false
  | [], _ :: _ => true
  | _ :: _, [] => false
  | a :: as_, b :: bs => if a < b then true else if b < a then false else lexLt as_ bs

/-- ASCII lower casing of one character, as used by eq_ignore_ascii_case. -/
def asciiLower (ch : Char) : Char :=
  if 'A' ≤ ch && ch ≤ 'Z' then Char.ofNat (ch.toNat + 32) else ch

/-- Model of Rust str::eq_ignore_ascii_case. -/
def eqIgnoreAsciiCase (a b : String) : Bool :=
  a.data.map asciiLower == b.data.map asciiLower

/-- Table column alignment (pulldown_cmark::Alignment). -/
inductive Alignment
  | none
  | left
  | center
  | right
deriving DecidableEq, Repr

/-- Heading level (pulldown_cmark::HeadingLevel). -/
inductive HeadingLevel
  | h1 | h2 | h3 | h4 | h5 | h6
deriving DecidableEq, Repr

/-- Code block kind (pulldown_cmark::CodeBlockKind). -/
inductive CodeBlockKind
  | indented
  | fenced (info : String)
deriving DecidableEq, Repr

/-- Link type (pulldown_cmark::LinkType). -/
inductive LinkType
  | inline
  | reference
  | referenceUnknown
  | collapsed
  | collapsedUnknown
  | shortcut
  | shortcutUnknown
  | autolink
  | email
deriving DecidableEq, Repr

/-- Block or inline construct tag (pulldown_cmark::Tag).  The list start
number of Tag::List is an Option Nat, converted to its decimal string by the
renderer just as the source calls to_string on the u64. -/
inductive Tag
  | paragraph
  | heading (lvl : HeadingLevel) (id : Option String) (classes : List String)
  | blockQuote
  | codeBlock (kind : CodeBlockKind)
  | list (start : Option Nat)
  | item
  | footnoteDefinition (label : String)
  | table (alignments : List Alignment)
  | tableHead
  | tableRow
  | tableCell
  | emphasis
  | strong
  | strikethrough
  | link (typ : LinkType) (dest : String) (title : String)
  | image (typ : LinkType) (dest : String) (title : String)
deriving DecidableEq, Repr

/-- One tokenizer event (pulldown_cmark::Event).  End events carry the full
tag, as in pulldown-cmark 0.9. -/
inductive Event
  | start (tag : Tag)
  | endTag (tag : Tag)
  | text (s : String)
  | code (s : String)
  | html (s : String)
  | footnoteReference (label : String)
  | softBreak
  | hardBreak
  | rule
  | taskListMarker (checked : Bool)
deriving DecidableEq, Repr

/-- One container stack frame (enum StackItem in the source). -/
inductive StackItem
  | blockquote
  | codeIndent
  | list (marker : Option String) (written : Bool) (nl : Bool)
deriving DecidableEq, Repr

/-- One collected reference definition (struct Reference in the source). -/
structure Reference where
  label : String
  dest : String
  title : Option String
deriving DecidableEq, Repr

/-- Per-table accumulator state (struct Table in the source). -/
structure Table where
  alignments : List Alignment
  head : List String
  body : List (List String)
deriving DecidableEq, Repr

/-- Table::new. -/
def Table.new (alignments : List Alignment) : Table :=
  { alignments := alignments, head := [], body := [] }

/-- Table::column_widths: for each header column index, the maximum of the
body cell character counts at that index (0 when absent), the header cell
character count, and 3. -/
def Table.column_widths (t : Table) : List Nat :=
  t.head.enum.map (fun p =>
    ((((t.body.map (fun (b : List String) => ((b.get? p.1).map String.length).getD 0)).foldr max 0)).max
        p.2.length).max 3)

/-- The code formatting callback type (CodeFormatFn in the source). -/
def CodeFormatFn := String → String → Option String

/-- Renderer state (struct Context in the source).  The writer is modelled
as the list of lines written so far; scratch is local to write_line and is
rebuilt functionally there. -/
structure Context where
  out : List String
  refdefs : List Reference
  table : Option Table
  stack : List StackItem
  text_buf : String
  newline_required : Bool
  code_block : Option (Option String)
  last_line_blank : Bool
deriving DecidableEq, Repr

/-- Context::new: empty buffers, empty stack, and last_line_blank starts
true so the document can never begin with a blank line. -/
def Context.new (refdefs : List Reference) : Context :=
  { out := [], refdefs := refdefs, table := Option.none, stack := [],
    text_buf := "", newline_required := false, code_block := Option.none,
    last_line_blank := true }

/-- Sorting of the reference definitions by label (refdefs.sort_by in
Formatter::format_cmark_writer), as a stable insertion sort. -/
def insertRef (r : Reference) : List Reference → List Reference
  | [] => [r]
  | x :: xs =>
    if lexLt r.label.data x.label.data then r :: x :: xs else x :: insertRef r xs

/-- Sort a reference definition list by label. -/
def sortRefs (l : List Reference) : List Reference := l.foldr insertRef []

/-- Core of Context::write_line acting on the emission state: pad+line is
trimmed of trailing whitespace unless trim is false, an empty line is
written only when the previous line was not blank, and last_line_blank is
updated to whether this line was blank. -/
def emitCore (out : List String) (llb : Bool) (buf0 : String) (trim : Bool) :
    List String × Bool :=
  let buf := if trim then trimEnd buf0 else buf0
  ((if !buf.isEmpty || !llb then out ++ [buf] else out), buf.isEmpty)

/-- Context::write_padding_to_scratch: fold over the stack from the bottom,
emitting each frame's padding contribution and setting the written flag of
list frames whose marker gets emitted.  Returns the padding string and the
updated stack. -/
def write_padding_to_scratch (bq ul : String) : List StackItem → String × List StackItem
  | [] => ("", [])
  | item :: rest =>
    let p : String × StackItem :=
      match item with
      | .blockquote => (bq ++ " ", .blockquote)
      | .codeIndent => ("    ", .codeIndent)
      | .list l written nl =>
        if written then
          match l with
          | Option.none => (spaces (ul.length + 1), .list l written nl)
          | some n => (spaces (n.length + 2), .list l written nl)
        else
          match l with
          | Option.none => (ul ++ " ", .list l true nl)
          | some n => (n ++ ". ", .list l true nl)
    let r := write_padding_to_scratch bq ul rest
    (p.1 ++ r.1, p.2 :: r.2)

/-- Context::write_line. -/
def Context.write_line (bq ul : String) (c : Context) (line : String) (trim : Bool) :
    Context :=
  let pr := write_padding_to_scratch bq ul c.stack
  let e := emitCore c.out c.last_line_blank (pr.1 ++ line) trim
  { c with stack := pr.2, out := e.1, last_line_blank := e.2 }

/-- Context::write_newline_with_trim: flush the pending buffer as physical
lines, or a single empty line when the buffer is empty. -/
def Context.write_newline_with_trim (bq ul : String) (c : Context) (trim : Bool) :
    Context :=
  if c.text_buf.isEmpty then c.write_line bq ul "" trim
  else
    (rustLines c.text_buf).foldl (fun acc l => acc.write_line bq ul l trim)
      { c with text_buf := "" }

/-- Context::write_newline. -/
def Context.write_newline (bq ul : String) (c : Context) : Context :=
  c.write_newline_with_trim bq ul true

/-- Context::write_newline_if_required. -/
def Context.write_newline_if_required (bq ul : String) (c : Context) : Context :=
  if c.newline_required then
    { c.write_newline bq ul with newline_required := false }
  else c

/-- Context::write_newline_if_content. -/
def Context.write_newline_if_content (bq ul : String) (c : Context) : Context :=
  if !c.text_buf.isEmpty || !c.stack.isEmpty then c.write_newline bq ul else c

/-- Context::write_str / write_char: append to the pending line buffer. -/
def Context.appendStr (c : Context) (s : String) : Context :=
  { c with text_buf := c.text_buf ++ s }

/-- Context::write_optional_escape: inside a code block only a fragment
starting with three backticks is escaped; otherwise a leading pipe is
escaped while a table is active, a leading character from the escape set is
always escaped, and a leading hash, dash or plus is escaped only when the
pending line buffer is empty. -/
def Context.write_optional_escape (c : Context) (s : String) : Context :=
  if c.code_block.isSome then
    if startsTicks s then c.appendStr "\\" else c
  else
    match s.data.head? with
    | Option.none => c
    | some first =>
      if c.table.isSome && first == '|' then c.appendStr "\\"
      else if ['\\', '<', '>', '*', '_', '\x60', '[', ']', '~'].contains first then
        c.appendStr "\\"
      else if (first == '#' || first == '-' || first == '+') && c.text_buf.isEmpty then
        c.appendStr "\\"
      else c

/-- One rendered table cell: space, cell text, right padding to the column
width, space, closing pipe. -/
def cellPiece (s : String) (w : Nat) : String :=
  " " ++ s ++ spaces (w - s.length) ++ " |"

/-- The cells of one rendered table row; the loop in write_table_row runs
over row.iter().zip(widths.iter()), stopping at the shorter list. -/
def rowCells : List String → List Nat → String
  | s :: ss, w :: ws => cellPiece s w ++ rowCells ss ws
  | _, _ => ""

/-- The full text of one rendered table row. -/
def rowString (row : List String) (widths : List Nat) : String :=
  "|" ++ rowCells row widths

/-- Context::write_table_row. -/
def Context.write_table_row (bq ul : String) (c : Context) (row : List String)
    (widths : List Nat) : Context :=
  (c.appendStr (rowString row widths)).write_newline bq ul

/-- The alignment marker run of one divider cell: colon or dash, w - 2
dashes, colon or dash. -/
def dividerMarks (w : Nat) (a : Alignment) : String :=
  (String.singleton (match a with | .left | .center => ':' | _ => '-'))
    ++ (⟨List.replicate (w - 2) '-'⟩ : String)
    ++ (String.singleton (match a with | .right | .center => ':' | _ => '-'))

/-- The cells of the divider row, over widths zipped with alignments. -/
def dividerCells : List Nat → List Alignment → String
  | w :: ws, a :: als => " " ++ dividerMarks w a ++ " |" ++ dividerCells ws als
  | _, _ => ""

/-- The full text of the divider row under the table header. -/
def dividerRow (widths : List Nat) (aligns : List Alignment) : String :=
  "|" ++ dividerCells widths aligns

/-- The hash marks written at the start of a heading
(Context::write_heading_level). -/
def headingMark : HeadingLevel → String
  | .h1 => "# "
  | .h2 => "## "
  | .h3 => "### "
  | .h4 => "#### "
  | .h5 => "##### "
  | .h6 => "###### "

/-- The attribute group written at the end of a heading carrying an
identifier or classes. -/
def headingAttrs (id : Option String) (classes : List String) : String :=
  if id.isNone && classes.isEmpty then ""
  else
    "\x7b" ++ (match id with | some i => " #" ++ i | Option.none => "")
      ++ String.join (classes.map (fun cl => " ." ++ cl)) ++ " \x7d"

/-- The optional quoted title suffix of an inline link destination. -/
def titleSuffix (title : String) : String :=
  if title.isEmpty then "" else " \"" ++ title ++ "\""

/-- True when the last stack frame is a list frame. -/
def lastIsList (stk : List StackItem) : Bool :=
  match stk.getLast? with
  | some (.list _ _ _) => true
  | _ => false

/-- Set the blank-separator flag of the last stack frame when it is a list
frame. -/
def setLastListNewline (stk : List StackItem) : List StackItem :=
  match stk.getLast? with
  | some (.list l w _) => stk.dropLast ++ [.list l w true]
  | _ => stk

/-- Reset the written and blank-separator flags of the last stack frame
when it is a list frame (start of a new item). -/
def setLastListItemReset (stk : List StackItem) : List StackItem :=
  match stk.getLast? with
  | some (.list l _ _) => stk.dropLast ++ [.list l false false]
  | _ => stk

/-- True when the last stack frame is a list frame whose blank-separator
flag is false. -/
def lastListNewlineIsFalse (stk : List StackItem) : Bool :=
  match stk.getLast? with
  | some (.list _ _ false) => true
  | _ => false

/-- True for a list stack frame. -/
def isListItem : StackItem → Bool
  | .list _ _ _ => true
  | _ => false

/-- Context::tag_start. -/
def Context.tag_start (bq em ul : String) (c : Context) (tag : Tag) : Context :=
  let c := c.write_newline_if_required bq ul
  match tag with
  | .heading lvl _ _ => c.appendStr (headingMark lvl)
  | .blockQuote => { c with stack := c.stack ++ [.blockquote] }
  | .codeBlock kind =>
    let c := if !c.text_buf.isEmpty then c.write_newline bq ul else c
    match kind with
    | .indented =>
      { c with code_block := some Option.none, stack := c.stack ++ [.codeIndent] }
    | .fenced s =>
      let c := c.appendStr ("```" ++ s)
      let c := c.write_newline bq ul
      { c with code_block := some (some s) }
  | .list l =>
    let c :=
      if lastIsList c.stack then
        Context.write_newline bq ul { c with stack := setLastListNewline c.stack }
      else c
    { c with stack := c.stack ++ [.list (l.map Nat.repr) false false] }
  | .item => { c with stack := setLastListItemReset c.stack }
  | .footnoteDefinition v => c.appendStr ("[^" ++ v ++ "]: ")
  | .table aligns => { c with table := some (Table.new aligns) }
  | .tableRow =>
    { c with table := c.table.map (fun t => { t with body := t.body ++ [[]] }) }
  | .emphasis => c.appendStr em
  | .strong => c.appendStr "**"
  | .strikethrough => c.appendStr "~~"
  | .link typ _ _ =>
    (match typ with
     | .autolink | .email => c.appendStr "<"
     | _ => c.appendStr "[")
  | .image _ _ _ => c.appendStr "!["
  | .paragraph | .tableHead | .tableCell => c

/-- Context::tag_end. -/
def Context.tag_end (bq em ul : String) (c : Context) (tag : Tag) : Context :=
  match tag with
  | .paragraph =>
    let c := if lastIsList c.stack then c else { c with newline_required := true }
    let c := { c with stack := setLastListNewline c.stack }
    c.write_newline_if_content bq ul
  | .heading _ id classes =>
    let c := c.appendStr (headingAttrs id classes)
    Context.write_newline bq ul { c with newline_required := true }
  | .blockQuote =>
    let c := { c with stack := c.stack.dropLast }
    if lastIsList c.stack then c else { c with newline_required := true }
  | .codeBlock kind =>
    let c := match kind with | .fenced _ => c.appendStr "```" | .indented => c
    let c := c.write_newline bq ul
    let c := match kind with
      | .indented => { c with stack := c.stack.dropLast }
      | _ => c
    { c with newline_required := true, code_block := Option.none }
  | .list _ =>
    let c := { c with stack := c.stack.dropLast }
    if c.stack.any isListItem then c else { c with newline_required := true }
  | .item =>
    if lastListNewlineIsFalse c.stack then c.write_newline_if_content bq ul else c
  | .table _ =>
    match c.table with
    | Option.none => c
    | some t =>
      let widths := t.column_widths
      let c0 := { c with table := (Option.none : Option Table) }
      let c1 := c0.write_table_row bq ul t.head widths
      let c2 := Context.write_newline bq ul
        (c1.appendStr (dividerRow widths t.alignments))
      let c3 := t.body.foldl (fun acc row => acc.write_table_row bq ul row widths) c2
      let c4 := { c3 with table := (Option.none : Option Table),
                          newline_required := true }
      { c4 with stack := setLastListNewline c4.stack }
  | .tableCell =>
    match c.table with
    | some t =>
      let t' :=
        match t.body.getLast? with
        | some b => { t with body := t.body.dropLast ++ [b ++ [c.text_buf]] }
        | Option.none => { t with head := t.head ++ [c.text_buf] }
      { c with table := some t', text_buf := "" }
    | Option.none => c
  | .emphasis => c.appendStr em
  | .strong => c.appendStr "**"
  | .strikethrough => c.appendStr "~~"
  | .link typ dest title =>
    (match typ with
     | .reference | .referenceUnknown =>
       (match c.refdefs.find? (fun r => eqIgnoreAsciiCase dest r.dest) with
        | some r => c.appendStr ("][" ++ r.label ++ "]")
        | Option.none => c.appendStr ("](" ++ dest ++ titleSuffix title ++ ")"))
     | .shortcut | .shortcutUnknown => c.appendStr "]"
     | .collapsed | .collapsedUnknown => c.appendStr "][]"
     | .autolink | .email => c.appendStr ">"
     | .inline => c.appendStr ("](" ++ dest ++ titleSuffix title ++ ")"))
  | .image _ dest title => c.appendStr ("](" ++ dest ++ titleSuffix title ++ ")")
  | .footnoteDefinition _ | .tableHead | .tableRow => c

/-- The text actually written for a text event: inside a fenced code block
with a configured code formatter, a returned replacement substitutes the
content, and a declined (none) result leaves the content untouched. -/
def transformText (cf : Option CodeFormatFn) (cb : Option (Option String)) (s : String) :
    String :=
  match cb with
  | some (some lang) =>
    (match cf with
     | some f => (match f lang s with | some v => v | Option.none => s)
     | Option.none => s)
  | _ => s

/-- True for an html event. -/
def isHtmlEv : Event → Bool
  | .html _ => true
  | _ => false

/-- The event dispatch of the loop body of Context::format (everything
after the is_last_html check). -/
def dispatch (cf : Option CodeFormatFn) (bq em ul : String) (c : Context) (e : Event) :
    Context :=
  match e with
  | .start tag => c.tag_start bq em ul tag
  | .endTag tag => c.tag_end bq em ul tag
  | .text s =>
    let t := transformText cf c.code_block s
    (c.write_optional_escape t).appendStr t
  | .code s =>
    c.appendStr ("`" ++ (if s.data.head? == some '\x60' then "\\" else "") ++ s ++ "`")
  | .html s =>
    let c := if c.text_buf.isEmpty then c.write_newline_if_required bq ul else c
    let c := c.appendStr s
    if s.data.getLast? == some '\n' then c.write_newline bq ul else c
  | .softBreak => c.write_newline bq ul
  | .hardBreak => (c.appendStr "\\").write_newline_with_trim bq ul false
  | .rule =>
    let c := if c.newline_required then c.write_newline bq ul else c
    let c := c.appendStr "---"
    let c := c.write_newline bq ul
    { c with newline_required := true }
  | .taskListMarker checked =>
    c.appendStr ("[" ++ (if checked then "x" else " ") ++ "] ")
  | .footnoteReference label => c.appendStr ("[^" ++ label ++ "]")

/-- One iteration of the event loop of Context::format: when the previous
event was raw html, a newline is forced first unless the current event is
html, text, a soft break or an end tag; then the event is dispatched, and
the is_last_html flag becomes whether this event was html. -/
def stepEv (cf : Option CodeFormatFn) (bq em ul : String) (c : Context) (ilh : Bool)
    (e : Event) : Context × Bool :=
  let c :=
    if ilh then
      match e with
      | .html _ | .text _ | .softBreak | .endTag _ => c
      | _ => c.write_newline bq ul
    else c
  (dispatch cf bq em ul c e, isHtmlEv e)

/-- The full event loop of Context::format over a finite event list,
starting from Context::new on the sorted reference definitions. -/
def processEvents (cf : Option CodeFormatFn) (bq em ul : String)
    (refdefs : List Reference) (events : List Event) : Context :=
  (events.foldl (fun p e => stepEv cf bq em ul p.1 p.2 e)
    (Context.new (sortRefs refdefs), false)).1

/-- The line emitted for one reference definition. -/
def refLine (r : Reference) : String :=
  "[" ++ r.label ++ "]: " ++ r.dest
    ++ (match r.title with | some t => " \"" ++ t ++ "\"" | Option.none => "")

/-- The trailing reference definition block of Context::format: the
definitions are taken out of the context unconditionally; when non-empty,
one newline is forced and every definition is written on its own line. -/
def emitRefdefs (bq ul : String) (c : Context) : Context :=
  let rs := c.refdefs
  let c := { c with refdefs := [] }
  if rs.isEmpty then c
  else
    let c := c.write_newline bq ul
    rs.foldl (fun acc r => Context.write_newline bq ul (acc.appendStr (refLine r))) c

/-- The whole render: Formatter::format_cmark_writer's pure part, from the
reference definition list (sorted by label first) and the event stream to
the final context. -/
def formatFull (cf : Option CodeFormatFn) (bq em ul : String)
    (refdefs : List Reference) (events : List Event) : Context :=
  emitRefdefs bq ul (processEvents cf bq em ul refdefs events)

/-- The rendered document as one string, i.e. the sink contents after a
successful render. -/
def renderOutput (cf : Option CodeFormatFn) (bq em ul : String)
    (refdefs : List Reference) (events : List Event) : String :=
  String.join (((formatFull cf bq em ul refdefs events).out).map (fun l => l ++ "\n"))

/-- The exact sequence of chunks written to the sink: each line write is
writer.write_str of the line then writer.write_char of a line feed. -/
def writeChunks (c : Context) : List String :=
  c.out.flatMap (fun l => [l, "\n"])

/-- Feed a chunk sequence to a fallible sink, aborting on the first failed
write. -/
def feedSink {σ : Type} (write : σ → String → Option σ) (s : σ) :
    List String → Option σ
  | [] => some s
  | c :: cs =>
    match write s c with
    | some s' => feedSink write s' cs
    | Option.none => Option.none

/-- Formatter::format_cmark_writer against an arbitrary fallible sink: the
pure render fixes the chunk sequence, and the sink consumes it until the
first failure, which aborts the render. -/
def format_cmark_writer {σ : Type} (write : σ → String → Option σ) (s0 : σ)
    (cf : Option CodeFormatFn) (bq em ul : String) (refdefs : List Reference)
    (events : List Event) : Option σ :=
  feedSink write s0 (writeChunks (formatFull cf bq em ul refdefs events))


/-- Projection of a context onto its emission state: the written lines and
the last_line_blank flag. -/
def es (c : Context) : List String × Bool := (c.out, c.last_line_blank)

/-- emitCore acting on an emission-state pair. -/
def emitCoreP (p : List String × Bool) (buf0 : String) (trim : Bool) :
    List String × Bool :=
  emitCore p.1 p.2 buf0 trim

/-- Reachability of one emission state from another through a sequence of
write_line cores whose trim flags all satisfy T.  Every mutation the
renderer performs on the sink factors through such a sequence. -/
inductive Reach (T : Bool → Prop) : List String × Bool → List String × Bool → Prop
  | refl (a : List String × Bool) : Reach T a a
  | snoc {a b : List String × Bool} (buf0 : String) (trim : Bool) :
      Reach T a b → T trim → Reach T a (emitCoreP b buf0 trim)

theorem Reach.trans {T : Bool → Prop} {a b c : List String × Bool}
    (h1 : Reach T a b) (h2 : Reach T b c) : Reach T a c := by
  induction h2 with
  | refl => exact h1
  | snoc buf0 trim h ht ih => exact Reach.snoc buf0 trim ih ht

theorem reach_cast {T : Bool → Prop} {p q r : List String × Bool} (h : p = q)
    (hr : Reach T q r) : Reach T p r := h ▸ hr

/-- Any property of the emission state preserved by admissible emitCore
steps transports along reachability. -/
theorem reach_preserves {T : Bool → Prop} (P : List String × Bool → Prop)
    (hP : ∀ p buf0 trim, T trim → P p → P (emitCoreP p buf0 trim)) :
    ∀ {a b : List String × Bool}, Reach T a b → P a → P b := by
  intro a b h hpa
  induction h with
  | refl => exact hpa
  | snoc buf0 trim h ht ih => exact hP _ buf0 trim ht ih

theorem reach_write_line {T : Bool → Prop} (bq ul : String) (c : Context)
    (line : String) (trim : Bool) (ht : T trim) :
    Reach T (es c) (es (c.write_line bq ul line trim)) :=
  Reach.snoc _ _ (Reach.refl _) ht

theorem reach_foldl {T : Bool → Prop} {α : Type} (f : Context → α → Context)
    (hf : ∀ (c : Context) (x : α), Reach T (es c) (es (f c x))) :
    ∀ (l : List α) (c : Context), Reach T (es c) (es (l.foldl f c)) := by
  intro l
  induction l with
  | nil => intro c; exact Reach.refl _
  | cons x xs ih => intro c; exact Reach.trans (hf c x) (ih (f c x))

theorem reach_write_newline_with_trim {T : Bool → Prop} (bq ul : String) (c : Context)
    (trim : Bool) (ht : T trim) :
    Reach T (es c) (es (c.write_newline_with_trim bq ul trim)) := by
  unfold Context.write_newline_with_trim
  split
  · exact reach_write_line bq ul c "" trim ht
  · exact reach_foldl (fun acc l => acc.write_line bq ul l trim)
      (fun c' l => reach_write_line bq ul c' l trim ht) (rustLines c.text_buf)
      { c with text_buf := "" }

theorem reach_write_newline {T : Bool → Prop} (bq ul : String) (c : Context)
    (ht : T true) : Reach T (es c) (es (c.write_newline bq ul)) :=
  reach_write_newline_with_trim bq ul c true ht

theorem reach_write_newline_if_required {T : Bool → Prop} (bq ul : String) (c : Context)
    (ht : T true) : Reach T (es c) (es (c.write_newline_if_required bq ul)) := by
  unfold Context.write_newline_if_required
  split
  · exact reach_write_newline bq ul c ht
  · exact Reach.refl _

theorem reach_write_newline_if_content {T : Bool → Prop} (bq ul : String) (c : Context)
    (ht : T true) : Reach T (es c) (es (c.write_newline_if_content bq ul)) := by
  unfold Context.write_newline_if_content
  split
  · exact reach_write_newline bq ul c ht
  · exact Reach.refl _

theorem reach_write_table_row {T : Bool → Prop} (bq ul : String) (c : Context)
    (row : List String) (widths : List Nat) (ht : T true) :
    Reach T (es c) (es (c.write_table_row bq ul row widths)) :=
  reach_write_newline bq ul (c.appendStr (rowString row widths)) ht

theorem es_write_optional_escape (c : Context) (s : String) :
    es (c.write_optional_escape s) = es c := by
  unfold Context.write_optional_escape
  repeat' split
  all_goals rfl

theorem reach_tag_start {T : Bool → Prop} (bq em ul : String) (c : Context) (tag : Tag)
    (ht : T true) : Reach T (es c) (es (c.tag_start bq em ul tag)) := by
  cases tag with
  | heading lvl id classes => exact reach_write_newline_if_required bq ul c ht
  | blockQuote => exact reach_write_newline_if_required bq ul c ht
  | codeBlock kind =>
    cases kind with
    | indented =>
      dsimp only [Context.tag_start]
      split
      · refine Reach.trans ?_ (reach_write_newline bq ul _ ht)
        exact reach_write_newline_if_required bq ul c ht
      · exact reach_write_newline_if_required bq ul c ht
    | fenced s =>
      dsimp only [Context.tag_start]
      split
      · refine Reach.trans ?_ (reach_write_newline bq ul _ ht)
        refine Reach.trans ?_ (reach_write_newline bq ul _ ht)
        exact reach_write_newline_if_required bq ul c ht
      · refine Reach.trans ?_ (reach_write_newline bq ul _ ht)
        exact reach_write_newline_if_required bq ul c ht
  | list l =>
    dsimp only [Context.tag_start]
    split
    · refine Reach.trans ?_ (reach_write_newline bq ul _ ht)
      exact reach_write_newline_if_required bq ul c ht
    · exact reach_write_newline_if_required bq ul c ht
  | item => exact reach_write_newline_if_required bq ul c ht
  | footnoteDefinition v => exact reach_write_newline_if_required bq ul c ht
  | table aligns => exact reach_write_newline_if_required bq ul c ht
  | tableHead => exact reach_write_newline_if_required bq ul c ht
  | tableRow => exact reach_write_newline_if_required bq ul c ht
  | tableCell => exact reach_write_newline_if_required bq ul c ht
  | emphasis => exact reach_write_newline_if_required bq ul c ht
  | strong => exact reach_write_newline_if_required bq ul c ht
  | strikethrough => exact reach_write_newline_if_required bq ul c ht
  | link typ dest title => cases typ <;> exact reach_write_newline_if_required bq ul c ht
  | image typ dest title => exact reach_write_newline_if_required bq ul c ht
  | paragraph => exact reach_write_newline_if_required bq ul c ht

theorem reach_tag_end {T : Bool → Prop} (bq em ul : String) (c : Context) (tag : Tag)
    (ht : T true) : Reach T (es c) (es (c.tag_end bq em ul tag)) := by
  cases tag with
  | paragraph =>
    dsimp only [Context.tag_end]
    refine reach_cast ?_ (reach_write_newline_if_content bq ul _ ht)
    split <;> rfl
  | heading lvl id classes =>
    refine Reach.trans ?_ (reach_write_newline bq ul _ ht)
    exact Reach.refl _
  | blockQuote =>
    dsimp only [Context.tag_end]
    split
    · exact Reach.refl _
    · exact Reach.refl _
  | codeBlock kind =>
    cases kind with
    | indented =>
      refine Reach.trans ?_ (reach_write_newline bq ul _ ht)
      exact Reach.refl _
    | fenced s =>
      refine Reach.trans ?_ (reach_write_newline bq ul _ ht)
      exact Reach.refl _
  | list l =>
    dsimp only [Context.tag_end]
    split
    · exact Reach.refl _
    · exact Reach.refl _
  | item =>
    dsimp only [Context.tag_end]
    split
    · exact reach_write_newline_if_content bq ul c ht
    · exact Reach.refl _
  | table aligns =>
    dsimp only [Context.tag_end]
    cases htab : c.table with
    | none => simp only [htab]; exact Reach.refl _
    | some t =>
      simp only [htab]
      refine Reach.trans ?_
        (reach_foldl (fun acc row => acc.write_table_row bq ul row t.column_widths)
          (fun acc row => reach_write_table_row bq ul acc row t.column_widths ht) t.body _)
      refine Reach.trans ?_ (reach_write_newline bq ul _ ht)
      refine Reach.trans ?_ (reach_write_table_row bq ul _ t.head t.column_widths ht)
      exact Reach.refl _
  | tableCell =>
    dsimp only [Context.tag_end]
    cases htab : c.table with
    | none => simp only [htab]; exact Reach.refl _
    | some t => simp only [htab]; exact Reach.refl _
  | emphasis => exact Reach.refl _
  | strong => exact Reach.refl _
  | strikethrough => exact Reach.refl _
  | link typ dest title =>
    cases typ <;> try exact Reach.refl _
    all_goals
      dsimp only [Context.tag_end]
      cases hf : c.refdefs.find? (fun r => eqIgnoreAsciiCase dest r.dest) <;>
        simp only [hf] <;> exact Reach.refl _
  | image typ dest title => exact Reach.refl _
  | footnoteDefinition v => exact Reach.refl _
  | tableHead => exact Reach.refl _
  | tableRow => exact Reach.refl _

theorem reach_dispatch {T : Bool → Prop} (cf : Option CodeFormatFn) (bq em ul : String)
    (c : Context) (e : Event) (ht : T true) (hhb : e = Event.hardBreak → T false) :
    Reach T (es c) (es (dispatch cf bq em ul c e)) := by
  cases e with
  | start tag => exact reach_tag_start bq em ul c tag ht
  | endTag tag => exact reach_tag_end bq em ul c tag ht
  | text s =>
    exact reach_cast (es_write_optional_escape c _).symm (Reach.refl _)
  | code s => exact Reach.refl _
  | html s =>
    cases htb : c.text_buf.isEmpty <;> cases hnl : s.data.getLast? == some '\n' <;>
      simp only [dispatch, htb, hnl, Bool.false_eq_true, if_true, if_false,
        ite_true, ite_false]
    · exact Reach.refl _
    · exact reach_write_newline bq ul (c.appendStr s) ht
    · exact reach_write_newline_if_required bq ul c ht
    · refine Reach.trans ?_
        (reach_write_newline bq ul ((c.write_newline_if_required bq ul).appendStr s) ht)
      exact reach_write_newline_if_required bq ul c ht
  | softBreak => exact reach_write_newline bq ul c ht
  | hardBreak =>
    exact reach_write_newline_with_trim bq ul (c.appendStr "\\") false (hhb rfl)
  | rule =>
    dsimp only [dispatch]
    split
    · refine Reach.trans ?_
        (reach_write_newline bq ul ((c.write_newline bq ul).appendStr "---") ht)
      exact reach_write_newline bq ul c ht
    · exact reach_write_newline bq ul (c.appendStr "---") ht
  | taskListMarker checked => exact Reach.refl _
  | footnoteReference label => exact Reach.refl _

theorem reach_stepEv (cf : Option CodeFormatFn) (bq em ul : String) (c : Context)
    (ilh : Bool) (e : Event) :
    Reach (fun t => t = true ∨ e = Event.hardBreak) (es c)
      (es (stepEv cf bq em ul c ilh e).1) := by
  refine Reach.trans ?_
    (reach_dispatch cf bq em ul _ e (Or.inl rfl) (fun h => Or.inr h))
  cases ilh with
  | false => exact Reach.refl _
  | true =>
    cases e with
    | html s => exact Reach.refl _
    | text s => exact Reach.refl _
    | softBreak => exact Reach.refl _
    | endTag tag => exact Reach.refl _
    | start tag => exact reach_write_newline bq ul c (Or.inl rfl)
    | code s => exact reach_write_newline bq ul c (Or.inl rfl)
    | footnoteReference label => exact reach_write_newline bq ul c (Or.inl rfl)
    | hardBreak => exact reach_write_newline bq ul c (Or.inl rfl)
    | rule => exact reach_write_newline bq ul c (Or.inl rfl)
    | taskListMarker checked => exact reach_write_newline bq ul c (Or.inl rfl)

theorem reach_emitRefdefs {T : Bool → Prop} (bq ul : String) (c : Context)
    (ht : T true) : Reach T (es c) (es (emitRefdefs bq ul c)) := by
  unfold emitRefdefs
  dsimp only
  split
  · exact Reach.refl _
  · refine Reach.trans ?_
      (reach_foldl (fun acc r => Context.write_newline bq ul (acc.appendStr (refLine r)))
        (fun acc r => reach_write_newline bq ul (acc.appendStr (refLine r)) ht) c.refdefs _)
    exact reach_write_newline bq ul { c with refdefs := ([] : List Reference) } ht

/-- Transport of an emission-state property preserved by every emitCore
step (any trim flag) through the whole render. -/
theorem P_formatFull {P : List String × Bool → Prop}
    (hP : ∀ p buf0 trim, P p → P (emitCoreP p buf0 trim))
    (cf : Option CodeFormatFn) (bq em ul : String) (refdefs : List Reference)
    (events : List Event) (hinit : P ([], true)) :
    P (es (formatFull cf bq em ul refdefs events)) := by
  have hrun : ∀ (l : List Event) (p : Context × Bool), P (es p.1) →
      P (es ((l.foldl (fun q e => stepEv cf bq em ul q.1 q.2 e) p).1)) := by
    intro l
    induction l with
    | nil => intro p h; exact h
    | cons e rest ih =>
      intro p h
      refine ih _ ?_
      exact reach_preserves P (fun q b t _ hq => hP q b t hq)
        (reach_stepEv cf bq em ul p.1 p.2 e) h
  refine reach_preserves P (fun q b t _ hq => hP q b t hq)
    (@reach_emitRefdefs (fun _ => True) bq ul _ trivial) ?_
  exact hrun events (Context.new (sortRefs refdefs), false) hinit

/-- Transport of an emission-state property preserved by trimming emitCore
steps through a render of a stream without hard breaks: every line flush
other than the hard-break flush trims. -/
theorem P_formatFull_trim {P : List String × Bool → Prop}
    (hP : ∀ p buf0, P p → P (emitCoreP p buf0 true))
    (cf : Option CodeFormatFn) (bq em ul : String) (refdefs : List Reference)
    (events : List Event) (hnb : ∀ e ∈ events, e ≠ Event.hardBreak)
    (hinit : P ([], true)) :
    P (es (formatFull cf bq em ul refdefs events)) := by
  have hrun : ∀ (l : List Event), (∀ e ∈ l, e ≠ Event.hardBreak) →
      ∀ (p : Context × Bool), P (es p.1) →
      P (es ((l.foldl (fun q e => stepEv cf bq em ul q.1 q.2 e) p).1)) := by
    intro l
    induction l with
    | nil => intro _ p h; exact h
    | cons e rest ih =>
      intro hl p h
      refine ih (fun x hx => hl x (List.mem_cons_of_mem e hx)) _ ?_
      refine reach_preserves P ?_ (reach_stepEv cf bq em ul p.1 p.2 e) h
      intro q b t htt hq
      rcases htt with h1 | h2
      · exact h1 ▸ hP q b hq
      · exact absurd h2 (hl e (List.mem_cons_self e rest))
  refine @reach_preserves (fun t => t = true) P
    (fun q b t ht hq => ht ▸ hP q b hq) _ _
    (@reach_emitRefdefs (fun t => t = true) bq ul _ rfl) ?_
  exact hrun events hnb (Context.new (sortRefs refdefs), false) hinit

/-- Invariant of the emission state: no two adjacent blank output lines,
no leading blank output line, and whenever last_line_blank is false the
last written line exists and is non-blank. -/
def P2 (p : List String × Bool) : Prop :=
  List.Chain' (fun a b => a ≠ "" ∨ b ≠ "") p.1 ∧ p.1.head? ≠ some "" ∧
    (p.2 = false → ∃ l, p.1.getLast? = some l ∧ l ≠ "")

theorem P2_emit (p : List String × Bool) (buf0 : String) (trim : Bool) (h : P2 p) :
    P2 (emitCoreP p buf0 trim) := by
  obtain ⟨out, llb⟩ := p
  obtain ⟨hch, hhd, hlast⟩ := h
  unfold emitCoreP emitCore
  dsimp only
  by_cases hb : (if trim then trimEnd buf0 else buf0) = ""
  · rw [hb]
    have hbe : ("" : String).isEmpty = true := rfl
    rw [hbe]
    cases llb with
    | true =>
      simp only [Bool.not_true, Bool.or_false, Bool.or_self]
      exact ⟨hch, hhd, fun hf => nomatch hf⟩
    | false =>
      simp only [Bool.not_false, Bool.or_true, if_true]
      obtain ⟨l, hl, hlne⟩ := hlast rfl
      refine ⟨?_, ?_, fun hf => nomatch hf⟩
      · rw [List.chain'_append]
        refine ⟨hch, List.chain'_singleton _, ?_⟩
        intro x hx y _
        left
        rw [hl] at hx
        simp only [Option.mem_def, Option.some_inj] at hx
        exact hx ▸ hlne
      · cases out with
        | nil => simp at hl
        | cons a as => simpa using hhd
  · have hbe : (if trim then trimEnd buf0 else buf0).isEmpty = false := by
      rcases hxx : (if trim then trimEnd buf0 else buf0).isEmpty with _ | _
      · rfl
      · exact absurd ((String.isEmpty_iff _).1 hxx) hb
    rw [hbe]
    simp only [Bool.not_false, Bool.true_or, if_true]
    refine ⟨?_, ?_, ?_⟩
    · rw [List.chain'_append]
      refine ⟨hch, List.chain'_singleton _, ?_⟩
      intro x _ y hy
      right
      simp only [List.head?_cons, Option.mem_def, Option.some_inj] at hy
      exact hy ▸ hb
    · cases out with
      | nil => simpa using hb
      | cons a as => simpa using hhd
    · intro _
      exact ⟨_, List.getLast?_concat _, hb⟩

/-- Claim C2: for every configuration, reference definition list and event
stream, the rendered output never contains two consecutive blank lines and
never starts with a blank line (an empty line is emitted only after a
non-blank one, and the initial state counts as blank). -/
theorem blank_line_collapsing (cf : Option CodeFormatFn) (bq em ul : String)
    (refdefs : List Reference) (events : List Event) :
    List.Chain' (fun a b => a ≠ "" ∨ b ≠ "")
      (formatFull cf bq em ul refdefs events).out ∧
    (formatFull cf bq em ul refdefs events).out.head? ≠ some "" := by
  have h := @P_formatFull P2 P2_emit cf bq em ul refdefs events
    ⟨List.chain'_nil, by simp, fun hf => nomatch hf⟩
  exact ⟨h.1, h.2.1⟩

/-- Claim C2, instantiated at a concrete document. -/
theorem blank_line_collapsing_witness :
    List.Chain' (fun a b => a ≠ "" ∨ b ≠ "")
      (formatFull Option.none ">" "_" "-" []
        [Event.start Tag.paragraph, Event.text "hi", Event.endTag Tag.paragraph,
         Event.start Tag.paragraph, Event.text "ho", Event.endTag Tag.paragraph]).out ∧
    (formatFull Option.none ">" "_" "-" []
      [Event.start Tag.paragraph, Event.text "hi", Event.endTag Tag.paragraph,
       Event.start Tag.paragraph, Event.text "ho", Event.endTag Tag.paragraph]).out.head?
      ≠ some "" :=
  blank_line_collapsing Option.none ">" "_" "-" []
    [Event.start Tag.paragraph, Event.text "hi", Event.endTag Tag.paragraph,
     Event.start Tag.paragraph, Event.text "ho", Event.endTag Tag.paragraph]

theorem data_getLast_nl_append (a l : String) (hl : l.data.getLast? = some '\n') :
    (a ++ l).data.getLast? = some '\n' := by
  rw [String.data_append]
  rw [List.getLast?_append_of_ne_nil]
  · exact hl
  · intro hnil
    rw [hnil] at hl
    exact nomatch hl

theorem join_terminated (ls : List String)
    (hls : ∀ l ∈ ls, l.data.getLast? = some '\n') :
    String.join ls = "" ∨ (String.join ls).data.getLast? = some '\n' := by
  have key : ∀ (l2 : List String), (∀ l ∈ l2, l.data.getLast? = some '\n') →
      ∀ acc : String, (acc = "" ∨ acc.data.getLast? = some '\n') →
      (l2.foldl (fun r s => r ++ s) acc = "" ∨
        (l2.foldl (fun r s => r ++ s) acc).data.getLast? = some '\n') := by
    intro l2
    induction l2 with
    | nil => intro _ acc hacc; exact hacc
    | cons x xs ih =>
      intro hmem acc _
      refine ih (fun l hl => hmem l (List.mem_cons_of_mem x hl)) (acc ++ x) ?_
      exact Or.inr (data_getLast_nl_append acc x (hmem x (List.mem_cons_self x xs)))
  exact key ls hls "" (Or.inl rfl)

/-- Claim C10: the rendered output is a concatenation of newline-terminated
lines, so a non-empty output ends with a line feed. -/
theorem line_terminated_output (cf : Option CodeFormatFn) (bq em ul : String)
    (refdefs : List Reference) (events : List Event)
    (h : renderOutput cf bq em ul refdefs events ≠ "") :
    (renderOutput cf bq em ul refdefs events).data.getLast? = some '\n' := by
  have hl : ∀ l ∈ ((formatFull cf bq em ul refdefs events).out).map
      (fun l => l ++ "\n"), l.data.getLast? = some '\n' := by
    intro l hl
    obtain ⟨a, _, rfl⟩ := List.mem_map.1 hl
    exact data_getLast_nl_append a "\n" rfl
  rcases join_terminated _ hl with hc | hc
  · exact absurd hc h
  · exact hc

/-- Claim C10, instantiated at a concrete document. -/
theorem line_terminated_output_witness :
    (renderOutput Option.none ">" "_" "-" []
      [Event.text "hi", Event.softBreak]).data.getLast? = some '\n' :=
  line_terminated_output Option.none ">" "_" "-" []
    [Event.text "hi", Event.softBreak] (by decide)

theorem trimEnd_idem (s : String) : trimEnd (trimEnd s) = trimEnd s := by
  unfold trimEnd
  simp only [List.reverse_reverse, List.dropWhile_idempotent]

theorem P8_emit (p : List String × Bool) (buf0 : String)
    (h : ∀ l ∈ p.1, trimEnd l = l) :
    ∀ l ∈ (emitCoreP p buf0 true).1, trimEnd l = l := by
  obtain ⟨out, llb⟩ := p
  unfold emitCoreP emitCore
  dsimp only
  intro l hl
  split at hl
  · split at hl
    · rcases List.mem_append.1 hl with hold | hnew
      · exact h l hold
      · simp only [List.mem_singleton] at hnew
        exact hnew ▸ trimEnd_idem buf0
    · exact h l hl
  · next hcontra => exact absurd rfl hcontra

/-- Claim C8: a hard break appends a backslash and then flushes the pending
line with trimming disabled; every flush reachable without a hard-break
event trims, so a render of a stream with no hard break only ever writes
lines with no trailing whitespace. -/
theorem hard_break_trim :
    (∀ (cf : Option CodeFormatFn) (bq em ul : String) (c : Context),
      dispatch cf bq em ul c Event.hardBreak
        = (c.appendStr "\\").write_newline_with_trim bq ul false) ∧
    (∀ (cf : Option CodeFormatFn) (bq em ul : String) (refdefs : List Reference)
        (events : List Event), (∀ e ∈ events, e ≠ Event.hardBreak) →
      ∀ l ∈ (formatFull cf bq em ul refdefs events).out, trimEnd l = l) :=
  ⟨fun _ _ _ _ _ => rfl,
   fun cf bq em ul refdefs events hnb =>
     @P_formatFull_trim (fun p => ∀ l ∈ p.1, trimEnd l = l)
       (fun p buf0 hp => P8_emit p buf0 hp) cf bq em ul refdefs events hnb
       (by intro l hl; exact absurd hl (List.not_mem_nil l))⟩

/-- Claim C8, instantiated at a concrete document without hard breaks,
whose only output line carries no trailing whitespace. -/
theorem hard_break_trim_witness : trimEnd "x" = "x" :=
  hard_break_trim.2 Option.none ">" "_" "-" []
    [Event.text "x  ", Event.softBreak] (by decide) "x" (by decide)

theorem max_rot (a b c : Nat) : (a.max b).max c = c.max (b.max a) := by
  show max (max a b) c = max c (max b a)
  rw [max_comm a b, max_comm _ c]

/-- The maximal character count of the cells of column i over the body
rows of a table, 0 for rows without an i-th cell (the spec formula). -/
def bodyColMax (t : Table) (i : Nat) : Nat :=
  (t.body.map (fun (b : List String) => ((b.get? i).map String.length).getD 0)).foldr max 0

/-- The column width the spec promises: the maximum of 3, the header cell
character count and the body maximum. -/
def colWidthSpec (t : Table) (i : Nat) : Nat :=
  max 3 (max (((t.head.get? i).map String.length).getD 0) (bodyColMax t i))

/-- Claim C3: each rendered column width equals
max(3, header cell count, body maximum), and the divider marker run of that
column has exactly that width, for any alignment. -/
theorem table_column_widths (t : Table) (i : Nat) (h : i < t.head.length) :
    t.column_widths[i]? = some (colWidthSpec t i) ∧
    3 ≤ colWidthSpec t i ∧
    ∀ a : Alignment, (dividerMarks (colWidthSpec t i) a).length = colWidthSpec t i := by
  have hv : t.column_widths[i]? = some (colWidthSpec t i) := by
    unfold Table.column_widths
    rw [List.getElem?_map, List.getElem?_enum, List.getElem?_eq_getElem h]
    simp only [Option.map_some']
    unfold colWidthSpec bodyColMax
    rw [List.get?_eq_getElem?, List.getElem?_eq_getElem h]
    simp only [Option.map_some', Option.getD_some]
    congr 1
    exact max_rot _ _ 3
  have h3 : 3 ≤ colWidthSpec t i := Nat.le_max_left 3 _
  refine ⟨hv, h3, ?_⟩
  intro a
  unfold dividerMarks
  rw [String.length_append, String.length_append]
  rw [String.length_singleton, String.length_singleton]
  have hmk : (⟨List.replicate (colWidthSpec t i - 2) '-'⟩ : String).length
      = colWidthSpec t i - 2 := by
    rw [String.length_mk, List.length_replicate]
  rw [hmk]
  omega

/-- Claim C3, instantiated at the spec scenario table. -/
theorem table_column_widths_witness :
    (Table.column_widths
        ⟨[Alignment.none, Alignment.none], ["Title", "Description"],
         [["Test", "This is a test"]]⟩)[1]?
      = some (colWidthSpec
          ⟨[Alignment.none, Alignment.none], ["Title", "Description"],
           [["Test", "This is a test"]]⟩ 1) ∧
    (dividerMarks (colWidthSpec
        ⟨[Alignment.none, Alignment.none], ["Title", "Description"],
         [["Test", "This is a test"]]⟩ 1) Alignment.left).length
      = colWidthSpec
          ⟨[Alignment.none, Alignment.none], ["Title", "Description"],
           [["Test", "This is a test"]]⟩ 1 :=
  ⟨(table_column_widths _ 1 (by decide)).1,
   (table_column_widths _ 1 (by decide)).2.2 Alignment.left⟩

/-- Number of pipe characters in a string. -/
def pipeCount (s : String) : Nat := s.data.count '|'

/-- Claim C4 counterexample: in the accumulated table with header AAA, BBB
and the single short body row x, the rendered body row has one cell (two
pipes) while the rendered header row has two cells (three pipes), and the
whole render shows the short line; the claim that every row renders the
same number of pipe-delimited cells as the header fails here. -/
theorem table_short_row_cex :
    renderOutput Option.none ">" "_" "-" []
        [Event.start (Tag.table [Alignment.none, Alignment.none]),
         Event.start Tag.tableHead,
         Event.start Tag.tableCell, Event.text "AAA", Event.endTag Tag.tableCell,
         Event.start Tag.tableCell, Event.text "BBB", Event.endTag Tag.tableCell,
         Event.endTag Tag.tableHead,
         Event.start Tag.tableRow,
         Event.start Tag.tableCell, Event.text "x", Event.endTag Tag.tableCell,
         Event.endTag Tag.tableRow,
         Event.endTag (Tag.table [Alignment.none, Alignment.none])]
      = "| AAA | BBB |\n| --- | --- |\n| x   |\n" ∧
    pipeCount (rowString ["x"]
        (Table.column_widths
          ⟨[Alignment.none, Alignment.none], ["AAA", "BBB"], [["x"]]⟩))
      ≠ pipeCount (rowString ["AAA", "BBB"]
          (Table.column_widths
            ⟨[Alignment.none, Alignment.none], ["AAA", "BBB"], [["x"]]⟩)) := by
  constructor
  · decide
  · decide

theorem pipeCount_rowCells :
    ∀ (row : List String) (widths : List Nat), (∀ s ∈ row, pipeCount s = 0) →
    (rowCells row widths).data.count '|' = min row.length widths.length := by
  intro row
  induction row with
  | nil =>
    intro widths _
    cases widths <;> simp [rowCells]
  | cons s ss ih =>
    intro widths hmem
    cases widths with
    | nil => simp [rowCells]
    | cons w ws =>
      have hs : pipeCount s = 0 := hmem s (List.mem_cons_self s ss)
      have hsp : (spaces (w - s.length)).data.count '|' = 0 := by
        refine List.count_eq_zero.2 ?_
        intro hmem2
        unfold spaces at hmem2
        simp only [List.mem_replicate] at hmem2
        exact absurd hmem2.2 (by decide)
      have hrest := ih ws (fun x hx => hmem x (List.mem_cons_of_mem s hx))
      show (cellPiece s w ++ rowCells ss ws).data.count '|' = _
      rw [String.data_append, List.count_append]
      unfold cellPiece
      rw [String.data_append, String.data_append, String.data_append]
      rw [List.count_append, List.count_append, List.count_append]
      unfold pipeCount at hs
      rw [hs, hsp, hrest]
      show 0 + 0 + 0 + 1 + min ss.length ws.length = min (ss.length + 1) (ws.length + 1)
      omega

/-- Claim C4 amended: a rendered table row has one pipe-delimited cell per
pair of the cell list zipped with the width list, i.e. min(row cells,
column count) cells; a row shorter than the header renders fewer cells and
the missing trailing columns are omitted rather than rendered as empty
cells.  (Cell contents are assumed pipe-free so cells can be counted by
their delimiters.) -/
theorem table_short_row_amended (row : List String) (widths : List Nat)
    (hrow : ∀ s ∈ row, pipeCount s = 0) :
    pipeCount (rowString row widths) = min row.length widths.length + 1 := by
  unfold rowString pipeCount
  rw [String.data_append, List.count_append]
  rw [pipeCount_rowCells row widths hrow]
  show 1 + min row.length widths.length = _
  omega

/-- Claim C4 amended, instantiated: the short row above renders
min(1, 2) + 1 = 2 pipes. -/
theorem table_short_row_amended_witness :
    pipeCount (rowString ["x"]
        (Table.column_widths
          ⟨[Alignment.none, Alignment.none], ["AAA", "BBB"], [["x"]]⟩))
      = min (["x"] : List String).length
          (Table.column_widths
            ⟨[Alignment.none, Alignment.none], ["AAA", "BBB"], [["x"]]⟩).length + 1 :=
  table_short_row_amended ["x"]
    (Table.column_widths ⟨[Alignment.none, Alignment.none], ["AAA", "BBB"], [["x"]]⟩)
    (by decide)

/-- Claim C5 counterexample: a text fragment starting with three backticks
inside an indented (not fenced) code block is still escaped with a
backslash, although the claim reserves the escape for fenced blocks. -/
theorem code_block_escape_cex :
    renderOutput Option.none ">" "_" "-" []
        [Event.start (Tag.codeBlock CodeBlockKind.indented), Event.text "```x",
         Event.endTag (Tag.codeBlock CodeBlockKind.indented)]
      = "    \\```x\n" ∧
    ("    \\```x\n" : String) ≠ "    ```x\n" := by
  constructor
  · decide
  · decide

/-- Claim C5 amended: while any code block is active, fenced or indented,
a text event is written verbatim with no character escaping, except that a
fragment starting with three backticks is prefixed with one backslash. -/
theorem code_block_escape_amended (bq em ul : String) (c : Context) (k : Option String)
    (s : String) (hcb : c.code_block = some k) :
    dispatch Option.none bq em ul c (Event.text s)
      = { c with text_buf := c.text_buf ++ (if startsTicks s then "\\" else "") ++ s } := by
  have htr : transformText Option.none c.code_block s = s := by
    rw [hcb]; cases k <;> rfl
  have hsome : c.code_block.isSome = true := by rw [hcb]; rfl
  dsimp only [dispatch]
  rw [htr]
  unfold Context.write_optional_escape
  rw [hsome]
  cases hts : startsTicks s with
  | true =>
    simp only [eq_self_iff_true, if_true]
    rfl
  | false =>
    simp only [Bool.false_eq_true, if_false, if_true, String.append_empty]
    rfl

/-- Claim C5 amended, instantiated inside a fenced block at a fragment
that does not start with backticks. -/
theorem code_block_escape_amended_witness :
    dispatch Option.none ">" "_" "-"
        { Context.new [] with code_block := some (some "rs") } (Event.text "abc")
      = { { Context.new [] with code_block := some (some "rs") } with
          text_buf := (Context.new []).text_buf
            ++ (if startsTicks "abc" then "\\" else "") ++ "abc" } :=
  code_block_escape_amended ">" "_" "-"
    { Context.new [] with code_block := some (some "rs") } (some "rs") "abc" rfl

/-- Claim C6: a reference or unknown-reference link end looks its
destination up in the reference table, case-insensitively against the
collected destinations; a hit emits the bracketed label short form and a
miss falls back to the inline destination form; shortcut link ends emit
the bare closing bracket and collapsed link ends the empty label pair. -/
theorem reference_link_resolution (bq em ul : String) (c : Context)
    (dest title : String) :
    (∀ r : Reference,
      c.refdefs.find? (fun r' => eqIgnoreAsciiCase dest r'.dest) = some r →
        c.tag_end bq em ul (Tag.link LinkType.reference dest title)
          = c.appendStr ("][" ++ r.label ++ "]") ∧
        c.tag_end bq em ul (Tag.link LinkType.referenceUnknown dest title)
          = c.appendStr ("][" ++ r.label ++ "]")) ∧
    (c.refdefs.find? (fun r' => eqIgnoreAsciiCase dest r'.dest) = Option.none →
        c.tag_end bq em ul (Tag.link LinkType.reference dest title)
          = c.appendStr ("](" ++ dest ++ titleSuffix title ++ ")") ∧
        c.tag_end bq em ul (Tag.link LinkType.referenceUnknown dest title)
          = c.appendStr ("](" ++ dest ++ titleSuffix title ++ ")")) ∧
    c.tag_end bq em ul (Tag.link LinkType.shortcut dest title) = c.appendStr "]" ∧
    c.tag_end bq em ul (Tag.link LinkType.shortcutUnknown dest title) = c.appendStr "]" ∧
    c.tag_end bq em ul (Tag.link LinkType.collapsed dest title) = c.appendStr "][]" ∧
    c.tag_end bq em ul (Tag.link LinkType.collapsedUnknown dest title)
      = c.appendStr "][]" := by
  refine ⟨?_, ?_, rfl, rfl, rfl, rfl⟩
  · intro r hf
    constructor <;> (dsimp only [Context.tag_end]; rw [hf])
  · intro hf
    constructor <;> (dsimp only [Context.tag_end]; rw [hf])

/-- Claim C6, instantiated at a reference link whose destination matches a
collected definition only up to ASCII case. -/
theorem reference_link_resolution_witness :
    Context.tag_end ">" "_" "-"
        (Context.new [⟨"lbl", "HTTP://X", Option.none⟩])
        (Tag.link LinkType.reference "http://x" "")
      = (Context.new [⟨"lbl", "HTTP://X", Option.none⟩]).appendStr
          ("][" ++ ("lbl" : String) ++ "]") :=
  ((reference_link_resolution ">" "_" "-"
      (Context.new [⟨"lbl", "HTTP://X", Option.none⟩]) "http://x" "").1
    ⟨"lbl", "HTTP://X", Option.none⟩ (by decide)).1

theorem dispatch_cf_none (bq em ul : String) (c : Context) (e : Event) :
    dispatch (some (fun _ _ => Option.none)) bq em ul c e
      = dispatch Option.none bq em ul c e := by
  cases e with
  | text s =>
    dsimp only [dispatch]
    have htx : transformText (some (fun _ _ => Option.none)) c.code_block s
        = transformText Option.none c.code_block s := by
      cases hcb : c.code_block with
      | none => rfl
      | some k => cases k <;> rfl
    rw [htx]
  | start tag => rfl
  | endTag tag => rfl
  | code s => rfl
  | html s => rfl
  | footnoteReference label => rfl
  | softBreak => rfl
  | hardBreak => rfl
  | rule => rfl
  | taskListMarker checked => rfl

theorem stepEv_cf_none (bq em ul : String) (c : Context) (ilh : Bool) (e : Event) :
    stepEv (some (fun _ _ => Option.none)) bq em ul c ilh e
      = stepEv Option.none bq em ul c ilh e := by
  unfold stepEv
  dsimp only
  rw [dispatch_cf_none]

theorem formatFull_cf_none (bq em ul : String) (refdefs : List Reference)
    (events : List Event) :
    formatFull (some (fun _ _ => Option.none)) bq em ul refdefs events
      = formatFull Option.none bq em ul refdefs events := by
  unfold formatFull processEvents
  have hf : (fun (p : Context × Bool) (e : Event) =>
        stepEv (some (fun _ _ => Option.none)) bq em ul p.1 p.2 e)
      = fun (p : Context × Bool) (e : Event) => stepEv Option.none bq em ul p.1 p.2 e := by
    funext p e
    exact stepEv_cf_none bq em ul p.1 p.2 e
  rw [hf]

theorem feedSink_total {σ : Type} (write : σ → String → Option σ)
    (hw : ∀ s c, write s c ≠ Option.none) :
    ∀ (l : List String) (s0 : σ), feedSink write s0 l ≠ Option.none := by
  intro l
  induction l with
  | nil => intro s0 h; exact nomatch h
  | cons ch cs ih =>
    intro s0
    unfold feedSink
    cases hw0 : write s0 ch with
    | none => exact absurd hw0 (hw s0 ch)
    | some s1 => exact ih s1

theorem feedSink_none_iff {σ : Type} (write : σ → String → Option σ) :
    ∀ (l : List String) (s0 : σ),
    feedSink write s0 l = Option.none ↔
      ∃ pre ch post, l = pre ++ ch :: post ∧
        ∃ s1, feedSink write s0 pre = some s1 ∧ write s1 ch = Option.none := by
  intro l
  induction l with
  | nil =>
    intro s0
    constructor
    · intro h; exact nomatch h
    · rintro ⟨pre, ch, post, habs, -⟩
      cases pre <;> exact nomatch habs
  | cons ch0 cs ih =>
    intro s0
    cases hw0 : write s0 ch0 with
    | none =>
      simp only [feedSink, hw0]
      constructor
      · intro _
        exact ⟨[], ch0, cs, rfl, s0, rfl, hw0⟩
      · intro _; trivial
    | some s1 =>
      simp only [feedSink, hw0]
      rw [ih s1]
      constructor
      · rintro ⟨pre, ch, post, hsplit, s2, hfeed, hfail⟩
        refine ⟨ch0 :: pre, ch, post, by rw [hsplit]; rfl, s2, ?_, hfail⟩
        simp only [feedSink, hw0]
        exact hfeed
      · rintro ⟨pre, ch, post, hsplit, s2, hfeed, hfail⟩
        cases pre with
        | nil =>
          simp only [List.nil_append] at hsplit
          obtain ⟨rfl, rfl⟩ : ch0 = ch ∧ cs = post := by
            exact ⟨(List.cons.injEq _ _ _ _ ▸ hsplit).1, (List.cons.injEq _ _ _ _ ▸ hsplit).2⟩
          obtain rfl : s0 = s2 := by
            simpa [feedSink] using hfeed
          exact absurd hfail (by rw [hw0]; exact fun hh => nomatch hh)
        | cons p ps =>
          simp only [List.cons_append, List.cons.injEq] at hsplit
          obtain ⟨rfl, hsplit2⟩ := hsplit
          refine ⟨ps, ch, post, hsplit2, s2, ?_, hfail⟩
          simp only [feedSink, hw0] at hfeed
          exact hfeed

/-- Claim C9: the render against a fallible sink fails exactly when one of
its chunk writes fails, the first failure aborting the remainder, and a
code formatting callback that always declines produces the same render as
no callback at all, never an error. -/
theorem error_behaviour :
    (∀ (σ : Type) (write : σ → String → Option σ) (s0 : σ) (cf : Option CodeFormatFn)
        (bq em ul : String) (refdefs : List Reference) (events : List Event),
      (∀ s c, write s c ≠ Option.none) →
      format_cmark_writer write s0 cf bq em ul refdefs events ≠ Option.none) ∧
    (∀ (σ : Type) (write : σ → String → Option σ) (s0 : σ) (cf : Option CodeFormatFn)
        (bq em ul : String) (refdefs : List Reference) (events : List Event),
      format_cmark_writer write s0 cf bq em ul refdefs events = Option.none ↔
        ∃ pre ch post,
          writeChunks (formatFull cf bq em ul refdefs events) = pre ++ ch :: post ∧
          ∃ s1, feedSink write s0 pre = some s1 ∧ write s1 ch = Option.none) ∧
    (∀ (bq em ul : String) (refdefs : List Reference) (events : List Event),
      formatFull (some (fun _ _ => Option.none)) bq em ul refdefs events
        = formatFull Option.none bq em ul refdefs events) :=
  ⟨fun _ write s0 _ _ _ _ _ _ hw => feedSink_total write hw _ s0,
   fun _ write s0 _ _ _ _ _ _ => feedSink_none_iff write _ s0,
   formatFull_cf_none⟩

/-- Claim C9, instantiated at a total sink collecting chunks. -/
theorem error_behaviour_witness :
    format_cmark_writer (fun (s : List String) (ch : String) => some (s ++ [ch])) []
        Option.none ">" "_" "-" [] [Event.text "hi", Event.softBreak]
      ≠ Option.none :=
  error_behaviour.1 (List String) (fun s ch => some (s ++ [ch])) [] Option.none
    ">" "_" "-" [] [Event.text "hi", Event.softBreak]
    (fun _ _ hh => nomatch hh)

theorem lexLt_irrefl : ∀ l : List Char, lexLt l l = false
  | [] => rfl
  | a :: as' => by
    unfold lexLt
    rw [if_neg (lt_irrefl a), if_neg (lt_irrefl a)]
    exact lexLt_irrefl as'

theorem lexLt_trans : ∀ (a b c : List Char),
    lexLt a b = true → lexLt b c = true → lexLt a c = true := by
  intro a
  induction a with
  | nil =>
    intro b c hab hbc
    cases b with
    | nil => exact nomatch hab
    | cons y ys =>
      cases c with
      | nil => exact nomatch hbc
      | cons z zs => rfl
  | cons x xs ih =>
    intro b c hab hbc
    cases b with
    | nil => exact nomatch hab
    | cons y ys =>
      cases c with
      | nil => exact nomatch hbc
      | cons z zs =>
        unfold lexLt at hab hbc ⊢
        by_cases hxy : x < y
        · rw [if_pos hxy] at hab
          by_cases hyz : y < z
          · rw [if_pos (lt_trans hxy hyz)]
          · rw [if_neg hyz] at hbc
            by_cases hzy : z < y
            · rw [if_pos hzy] at hbc; exact nomatch hbc
            · have hyeq : y = z := le_antisymm (not_lt.1 hzy) (not_lt.1 hyz)
              rw [if_pos (lt_of_lt_of_le hxy (le_of_eq hyeq))]
        · rw [if_neg hxy] at hab
          by_cases hyx : y < x
          · rw [if_pos hyx] at hab; exact nomatch hab
          · rw [if_neg hyx] at hab
            have hxeq : x = y := le_antisymm (not_lt.1 hyx) (not_lt.1 hxy)
            by_cases hyz : y < z
            · rw [if_pos (lt_of_le_of_lt (le_of_eq hxeq) hyz)]
            · rw [if_neg hyz] at hbc
              by_cases hzy : z < y
              · rw [if_pos hzy] at hbc; exact nomatch hbc
              · rw [if_neg hzy] at hbc
                have hyzeq : y = z := le_antisymm (not_lt.1 hzy) (not_lt.1 hyz)
                have hxz : ¬ x < z := by rw [hxeq, hyzeq]; exact lt_irrefl z
                have hzx : ¬ z < x := by rw [hxeq, hyzeq]; exact lt_irrefl z
                rw [if_neg hxz, if_neg hzx]
                exact ih ys zs hab hbc

theorem lexLt_asymm (a b : List Char) (h : lexLt a b = true) : lexLt b a = false := by
  cases hba : lexLt b a
  · rfl
  · have hx := lexLt_trans a b a h hba
    rw [lexLt_irrefl] at hx
    exact nomatch hx

theorem lexLt_eq_of_not : ∀ (a b : List Char),
    lexLt a b = false → lexLt b a = false → a = b := by
  intro a
  induction a with
  | nil =>
    intro b hab _
    cases b with
    | nil => rfl
    | cons y ys => exact nomatch hab
  | cons x xs ih =>
    intro b hab hba
    cases b with
    | nil => exact nomatch hba
    | cons y ys =>
      unfold lexLt at hab hba
      by_cases hxy : x < y
      · rw [if_pos hxy] at hab; exact nomatch hab
      · rw [if_neg hxy] at hab
        by_cases hyx : y < x
        · rw [if_pos hyx] at hba; exact nomatch hba
        · rw [if_neg hyx] at hab
          rw [if_neg hyx, if_neg hxy] at hba
          have hxeq : x = y := le_antisymm (not_lt.1 hyx) (not_lt.1 hxy)
          rw [hxeq, ih ys hab hba]

/-- Label order of reference definitions: a comes no later than b. -/
def refLe (a b : Reference) : Prop := lexLt b.label.data a.label.data = false

theorem refLe_trans {a b c : Reference} (hab : refLe a b) (hbc : refLe b c) :
    refLe a c := by
  unfold refLe at *
  cases hca : lexLt c.label.data a.label.data
  · rfl
  · cases hbcx : lexLt b.label.data c.label.data
    · have hbceq : b.label.data = c.label.data := lexLt_eq_of_not _ _ hbcx hbc
      rw [← hbceq] at hca
      rw [hab] at hca
      exact nomatch hca
    · have hx := lexLt_trans _ _ _ hbcx hca
      rw [hab] at hx
      exact nomatch hx

theorem insertRef_perm (r : Reference) : ∀ l : List Reference,
    (insertRef r l).Perm (r :: l) := by
  intro l
  induction l with
  | nil => exact List.Perm.refl _
  | cons x xs ih =>
    unfold insertRef
    split
    · exact List.Perm.refl _
    · exact (ih.cons x).trans (List.Perm.swap r x xs)

theorem sortRefs_perm (l : List Reference) : (sortRefs l).Perm l := by
  induction l with
  | nil => exact List.Perm.refl _
  | cons x xs ih =>
    show (insertRef x (sortRefs xs)).Perm (x :: xs)
    exact (insertRef_perm x (sortRefs xs)).trans (ih.cons x)

theorem pairwise_insertRef (r : Reference) : ∀ l : List Reference,
    List.Pairwise refLe l → List.Pairwise refLe (insertRef r l) := by
  intro l
  induction l with
  | nil => intro _; exact List.pairwise_singleton _ _
  | cons x xs ih =>
    intro hp
    obtain ⟨hx, hxs⟩ := List.pairwise_cons.1 hp
    unfold insertRef
    split
    · next hlt =>
      refine List.Pairwise.cons ?_ hp
      intro y hy
      rcases List.mem_cons.1 hy with rfl | hy2
      · exact lexLt_asymm _ _ hlt
      · exact refLe_trans (lexLt_asymm _ _ hlt) (hx y hy2)
    · next hnlt =>
      refine List.Pairwise.cons ?_ (ih hxs)
      intro y hy
      have hyp : y ∈ r :: xs := (insertRef_perm r xs).mem_iff.1 hy
      rcases List.mem_cons.1 hyp with rfl | hy2
      · unfold refLe
        cases hq : lexLt y.label.data x.label.data
        · rfl
        · exact absurd hq hnlt
      · exact hx y hy2

theorem sortRefs_pairwise (l : List Reference) : List.Pairwise refLe (sortRefs l) := by
  induction l with
  | nil => exact List.Pairwise.nil
  | cons x xs ih => exact pairwise_insertRef x (sortRefs xs) ih

@[simp] theorem refdefs_appendStr (c : Context) (s : String) :
    (c.appendStr s).refdefs = c.refdefs := rfl

@[simp] theorem refdefs_write_line (bq ul : String) (c : Context) (l : String) (t : Bool) :
    (c.write_line bq ul l t).refdefs = c.refdefs := rfl

@[simp] theorem refdefs_wnt (bq ul : String) (c : Context) (t : Bool) :
    (c.write_newline_with_trim bq ul t).refdefs = c.refdefs := by
  unfold Context.write_newline_with_trim
  split
  · rfl
  · have hfold : ∀ (ls : List String) (c' : Context),
        (ls.foldl (fun acc l => acc.write_line bq ul l t) c').refdefs = c'.refdefs := by
      intro ls
      induction ls with
      | nil => intro c'; rfl
      | cons a as' ih2 =>
        intro c'
        rw [List.foldl_cons, ih2]
        rfl
    rw [hfold]

@[simp] theorem refdefs_wn (bq ul : String) (c : Context) :
    (c.write_newline bq ul).refdefs = c.refdefs := refdefs_wnt bq ul c true

@[simp] theorem refdefs_wnr (bq ul : String) (c : Context) :
    (c.write_newline_if_required bq ul).refdefs = c.refdefs := by
  unfold Context.write_newline_if_required
  split
  · show (c.write_newline bq ul).refdefs = c.refdefs
    exact refdefs_wn bq ul c
  · rfl

@[simp] theorem refdefs_wnic (bq ul : String) (c : Context) :
    (c.write_newline_if_content bq ul).refdefs = c.refdefs := by
  unfold Context.write_newline_if_content
  split
  · exact refdefs_wn bq ul c
  · rfl

@[simp] theorem refdefs_wtr (bq ul : String) (c : Context) (row : List String)
    (w : List Nat) : (c.write_table_row bq ul row w).refdefs = c.refdefs := by
  show (Context.write_newline bq ul (c.appendStr (rowString row w))).refdefs = c.refdefs
  rw [refdefs_wn]
  rfl

@[simp] theorem refdefs_foldl_wtr (bq ul : String) (w : List Nat) :
    ∀ (body : List (List String)) (c : Context),
    (body.foldl (fun acc row => acc.write_table_row bq ul row w) c).refdefs
      = c.refdefs := by
  intro body
  induction body with
  | nil => intro c; rfl
  | cons b bs ih => intro c; rw [List.foldl_cons, ih, refdefs_wtr]

@[simp] theorem refdefs_woe (c : Context) (s : String) :
    (c.write_optional_escape s).refdefs = c.refdefs := by
  unfold Context.write_optional_escape
  repeat' split
  all_goals rfl

theorem refdefs_tag_start (bq em ul : String) (c : Context) (tag : Tag) :
    (c.tag_start bq em ul tag).refdefs = c.refdefs := by
  cases tag with
  | codeBlock kind =>
    cases kind with
    | indented =>
      dsimp only [Context.tag_start]
      split
      · exact (refdefs_wn bq ul _).trans (refdefs_wnr bq ul c)
      · exact refdefs_wnr bq ul c
    | fenced s =>
      dsimp only [Context.tag_start]
      split
      · exact (refdefs_wn bq ul _).trans
          ((refdefs_wn bq ul _).trans (refdefs_wnr bq ul c))
      · exact (refdefs_wn bq ul _).trans (refdefs_wnr bq ul c)
  | list l =>
    dsimp only [Context.tag_start]
    split
    · exact (refdefs_wn bq ul _).trans (refdefs_wnr bq ul c)
    · exact refdefs_wnr bq ul c
  | link typ dest title => cases typ <;> exact refdefs_wnr bq ul c
  | heading lvl id classes => exact refdefs_wnr bq ul c
  | blockQuote => exact refdefs_wnr bq ul c
  | item => exact refdefs_wnr bq ul c
  | footnoteDefinition v => exact refdefs_wnr bq ul c
  | table aligns => exact refdefs_wnr bq ul c
  | tableHead => exact refdefs_wnr bq ul c
  | tableRow => exact refdefs_wnr bq ul c
  | tableCell => exact refdefs_wnr bq ul c
  | emphasis => exact refdefs_wnr bq ul c
  | strong => exact refdefs_wnr bq ul c
  | strikethrough => exact refdefs_wnr bq ul c
  | image typ dest title => exact refdefs_wnr bq ul c
  | paragraph => exact refdefs_wnr bq ul c

theorem refdefs_tag_end (bq em ul : String) (c : Context) (tag : Tag) :
    (c.tag_end bq em ul tag).refdefs = c.refdefs := by
  cases tag with
  | paragraph =>
    dsimp only [Context.tag_end]
    exact (refdefs_wnic bq ul _).trans (by split <;> rfl)
  | heading lvl id classes => exact refdefs_wn bq ul _
  | blockQuote =>
    dsimp only [Context.tag_end]
    split <;> rfl
  | codeBlock kind =>
    cases kind with
    | indented => exact refdefs_wn bq ul c
    | fenced s => exact refdefs_wn bq ul (c.appendStr "```")
  | list l =>
    dsimp only [Context.tag_end]
    split <;> rfl
  | item =>
    dsimp only [Context.tag_end]
    split
    · exact refdefs_wnic bq ul c
    · rfl
  | table aligns =>
    dsimp only [Context.tag_end]
    cases htab : c.table with
    | none => simp only [htab]
    | some t =>
      simp only [htab]
      exact (refdefs_foldl_wtr bq ul t.column_widths t.body _).trans
        ((refdefs_wn bq ul _).trans (refdefs_wtr bq ul _ t.head t.column_widths))
  | tableCell =>
    dsimp only [Context.tag_end]
    cases htab : c.table with
    | none => simp only [htab]
    | some t => simp only [htab]
  | emphasis => rfl
  | strong => rfl
  | strikethrough => rfl
  | link typ dest title =>
    cases typ <;> try rfl
    all_goals
      dsimp only [Context.tag_end]
      cases hf : c.refdefs.find? (fun r => eqIgnoreAsciiCase dest r.dest) <;>
        simp only [hf] <;> rfl
  | image typ dest title => rfl
  | footnoteDefinition v => rfl
  | tableHead => rfl
  | tableRow => rfl

theorem refdefs_dispatch (cf : Option CodeFormatFn) (bq em ul : String) (c : Context)
    (e : Event) : (dispatch cf bq em ul c e).refdefs = c.refdefs := by
  cases e with
  | start tag => exact refdefs_tag_start bq em ul c tag
  | endTag tag => exact refdefs_tag_end bq em ul c tag
  | text s => exact refdefs_woe c _
  | code s => rfl
  | html s =>
    dsimp only [dispatch]
    split
    · refine (refdefs_wn bq ul _).trans ?_
      split
      · exact refdefs_wnr bq ul c
      · rfl
    · split
      · exact refdefs_wnr bq ul c
      · rfl
  | softBreak => exact refdefs_wn bq ul c
  | hardBreak => exact refdefs_wnt bq ul _ false
  | rule =>
    dsimp only [dispatch]
    split
    · exact (refdefs_wn bq ul _).trans (refdefs_wn bq ul c)
    · exact refdefs_wn bq ul _
  | taskListMarker checked => rfl
  | footnoteReference label => rfl

theorem refdefs_stepEv (cf : Option CodeFormatFn) (bq em ul : String) (c : Context)
    (ilh : Bool) (e : Event) :
    (stepEv cf bq em ul c ilh e).1.refdefs = c.refdefs := by
  unfold stepEv
  dsimp only
  rw [refdefs_dispatch]
  cases ilh with
  | false => rfl
  | true => cases e <;> first | rfl | exact refdefs_wn bq ul c

theorem refdefs_processEvents (cf : Option CodeFormatFn) (bq em ul : String)
    (refdefs : List Reference) (events : List Event) :
    (processEvents cf bq em ul refdefs events).refdefs = sortRefs refdefs := by
  unfold processEvents
  have hfold : ∀ (l : List Event) (p : Context × Bool),
      ((l.foldl (fun q e => stepEv cf bq em ul q.1 q.2 e) p).1).refdefs
        = p.1.refdefs := by
    intro l
    induction l with
    | nil => intro p; rfl
    | cons e rest ih =>
      intro p
      rw [List.foldl_cons, ih]
      exact refdefs_stepEv cf bq em ul p.1 p.2 e
  rw [hfold]
  rfl

theorem isEmpty_false_of_data_ne (s : String) (h : s.data ≠ []) :
    s.isEmpty = false := by
  cases he : s.isEmpty
  · rfl
  · rw [(String.isEmpty_iff s).1 he] at h
    exact absurd rfl h

theorem refLine_isEmpty (r : Reference) : (refLine r).isEmpty = false := by
  apply isEmpty_false_of_data_ne
  obtain ⟨lab, dst, tit⟩ := r
  have h1 : ("[" : String).data = ['['] := rfl
  cases tit <;> simp [refLine, String.data_append, h1]

theorem trimEnd_refLine_isEmpty (r : Reference) :
    (trimEnd (refLine r)).isEmpty = false := by
  apply isEmpty_false_of_data_ne
  unfold trimEnd
  intro hnil
  have hnil2 : ((refLine r).data.reverse.dropWhile Char.isWhitespace).reverse = [] := hnil
  rw [List.reverse_eq_nil_iff] at hnil2
  rw [List.dropWhile_eq_nil_iff] at hnil2
  have hbr : '[' ∈ (refLine r).data.reverse := by
    rw [List.mem_reverse]
    obtain ⟨lab, dst, tit⟩ := r
    have h1 : ("[" : String).data = ['['] := rfl
    cases tit <;> simp [refLine, String.data_append, h1]
  have hw := hnil2 '[' hbr
  exact absurd hw (by decide)

theorem write_line_set_refdefs (bq ul : String) (c : Context) (rs : List Reference)
    (l : String) (t : Bool) :
    Context.write_line bq ul { c with refdefs := rs } l t
      = { Context.write_line bq ul c l t with refdefs := rs } := rfl

theorem foldl_write_line_set_refdefs (bq ul : String) (t : Bool) (rs : List Reference) :
    ∀ (ls : List String) (c : Context),
    ls.foldl (fun acc l => Context.write_line bq ul acc l t) { c with refdefs := rs }
      = { ls.foldl (fun acc l => Context.write_line bq ul acc l t) c with refdefs := rs } := by
  intro ls
  induction ls with
  | nil => intro c; rfl
  | cons a as' ih =>
    intro c
    rw [List.foldl_cons, List.foldl_cons, write_line_set_refdefs]
    exact ih (Context.write_line bq ul c a t)

theorem wnt_set_refdefs (bq ul : String) (c : Context) (rs : List Reference) (t : Bool) :
    Context.write_newline_with_trim bq ul { c with refdefs := rs } t
      = { Context.write_newline_with_trim bq ul c t with refdefs := rs } := by
  unfold Context.write_newline_with_trim
  dsimp only
  split
  · rfl
  · exact foldl_write_line_set_refdefs bq ul t rs (rustLines c.text_buf)
      { c with text_buf := "" }

theorem wn_set_refdefs (bq ul : String) (c : Context) (rs : List Reference) :
    Context.write_newline bq ul { c with refdefs := rs }
      = { Context.write_newline bq ul c with refdefs := rs } :=
  wnt_set_refdefs bq ul c rs true

theorem write_line_stack_nil (bq ul : String) (c : Context) (l : String) (t : Bool)
    (h : c.stack = []) : (Context.write_line bq ul c l t).stack = [] := by
  unfold Context.write_line
  rw [h]
  rfl

theorem write_line_text_buf (bq ul : String) (c : Context) (l : String) (t : Bool) :
    (Context.write_line bq ul c l t).text_buf = c.text_buf := rfl

theorem foldl_write_line_stack_nil (bq ul : String) (t : Bool) :
    ∀ (ls : List String) (c : Context), c.stack = [] →
    (ls.foldl (fun acc l => Context.write_line bq ul acc l t) c).stack = [] := by
  intro ls
  induction ls with
  | nil => intro c h; exact h
  | cons a as' ih =>
    intro c h
    rw [List.foldl_cons]
    exact ih _ (write_line_stack_nil bq ul c a t h)

theorem foldl_write_line_text_buf (bq ul : String) (t : Bool) :
    ∀ (ls : List String) (c : Context),
    (ls.foldl (fun acc l => Context.write_line bq ul acc l t) c).text_buf
      = c.text_buf := by
  intro ls
  induction ls with
  | nil => intro c; rfl
  | cons a as' ih =>
    intro c
    rw [List.foldl_cons, ih]
    rfl

theorem wn_stack_nil (bq ul : String) (c : Context) (h : c.stack = []) :
    (Context.write_newline bq ul c).stack = [] := by
  unfold Context.write_newline Context.write_newline_with_trim
  split
  · exact write_line_stack_nil bq ul c "" true h
  · exact foldl_write_line_stack_nil bq ul true (rustLines c.text_buf)
      { c with text_buf := "" } h

theorem wn_text_buf (bq ul : String) (c : Context) :
    (Context.write_newline bq ul c).text_buf = "" := by
  unfold Context.write_newline Context.write_newline_with_trim
  split
  · next h =>
    rw [write_line_text_buf]
    exact (String.isEmpty_iff _).1 h
  · rw [foldl_write_line_text_buf]

theorem refstep (bq ul : String) (c : Context) (r : Reference)
    (hst : c.stack = []) (htb : c.text_buf = "")
    (hone : rustLines (refLine r) = [refLine r]) :
    Context.write_newline bq ul (c.appendStr (refLine r))
      = { c with out := c.out ++ [trimEnd (refLine r)], last_line_blank := false } := by
  obtain ⟨co, cr, cta, cst, ctb, cnr, ccb, cll⟩ := c
  dsimp only at hst htb
  subst hst
  subst htb
  unfold Context.appendStr Context.write_newline Context.write_newline_with_trim
  dsimp only
  rw [String.empty_append, refLine_isEmpty r]
  simp only [Bool.false_eq_true, if_false, hone, List.foldl_cons, List.foldl_nil]
  unfold Context.write_line write_padding_to_scratch
  dsimp only
  unfold emitCore
  dsimp only
  rw [String.empty_append]
  simp only [eq_self_iff_true, if_true]
  rw [trimEnd_refLine_isEmpty r]
  simp only [Bool.not_false, Bool.true_or, if_true]

theorem refloop (bq ul : String) :
    ∀ (rs : List Reference) (c : Context), c.stack = [] → c.text_buf = "" →
    (∀ r ∈ rs, rustLines (refLine r) = [refLine r]) →
    (rs.foldl (fun acc r => Context.write_newline bq ul (acc.appendStr (refLine r))) c).out
      = c.out ++ rs.map (fun r => trimEnd (refLine r)) := by
  intro rs
  induction rs with
  | nil => intro c _ _ _; simp
  | cons r rest ih =>
    intro c hst htb hone
    rw [List.foldl_cons]
    rw [refstep bq ul c r hst htb (hone r (List.mem_cons_self r rest))]
    rw [ih { c with out := c.out ++ [trimEnd (refLine r)], last_line_blank := false }
      hst htb (fun r2 h2 => hone r2 (List.mem_cons_of_mem r h2))]
    rw [List.map_cons, List.append_assoc]
    rfl

/-- Claim C7: with a non-empty collected reference definition list, the
render emits, after all body content and one forced newline boundary, one
line per collected definition, each of the form label colon destination
with the optional quoted title (trimmed of trailing whitespace like every
other line), sorted by label in byte-lexicographic order, and the emitted
list is a permutation of the collected one: unused definitions are
preserved, not pruned.  The stack hypothesis says the event stream closed
its containers; the line hypothesis says each rendered definition is one
physical line. -/
theorem refdef_emission (cf : Option CodeFormatFn) (bq em ul : String)
    (refdefs : List Reference) (events : List Event)
    (hne : refdefs ≠ [])
    (hstack : (processEvents cf bq em ul refdefs events).stack = [])
    (hone : ∀ r ∈ sortRefs refdefs, rustLines (refLine r) = [refLine r]) :
    (formatFull cf bq em ul refdefs events).out
      = (Context.write_newline bq ul (processEvents cf bq em ul refdefs events)).out
        ++ (sortRefs refdefs).map (fun r => trimEnd (refLine r))
    ∧ List.Pairwise refLe (sortRefs refdefs)
    ∧ (sortRefs refdefs).Perm refdefs := by
  refine ⟨?_, sortRefs_pairwise refdefs, sortRefs_perm refdefs⟩
  have hrd : (processEvents cf bq em ul refdefs events).refdefs = sortRefs refdefs :=
    refdefs_processEvents cf bq em ul refdefs events
  have hsne : (sortRefs refdefs).isEmpty = false := by
    cases hs : sortRefs refdefs with
    | nil =>
      have hperm := sortRefs_perm refdefs
      rw [hs] at hperm
      exact absurd hperm.symm.eq_nil hne
    | cons a l => rfl
  unfold formatFull emitRefdefs
  dsimp only
  rw [hrd, hsne]
  simp only [Bool.false_eq_true, if_false]
  rw [wn_set_refdefs]
  rw [refloop bq ul (sortRefs refdefs)
    { Context.write_newline bq ul (processEvents cf bq em ul refdefs events) with
      refdefs := [] }
    (wn_stack_nil bq ul _ hstack) (wn_text_buf bq ul _) hone]

/-- Claim C7, instantiated at an empty document with two unsorted
reference definitions. -/
theorem refdef_emission_witness :
    (formatFull Option.none ">" "_" "-"
        [⟨"b", "http://b", Option.none⟩, ⟨"a", "http://a", some "T"⟩] []).out
      = (Context.write_newline ">" "-"
          (processEvents Option.none ">" "_" "-"
            [⟨"b", "http://b", Option.none⟩, ⟨"a", "http://a", some "T"⟩] [])).out
        ++ (sortRefs [⟨"b", "http://b", Option.none⟩, ⟨"a", "http://a", some "T"⟩]).map
            (fun r => trimEnd (refLine r))
    ∧ List.Pairwise refLe
        (sortRefs [⟨"b", "http://b", Option.none⟩, ⟨"a", "http://a", some "T"⟩])
    ∧ (sortRefs [⟨"b", "http://b", Option.none⟩, ⟨"a", "http://a", some "T"⟩]).Perm
        [⟨"b", "http://b", Option.none⟩, ⟨"a", "http://a", some "T"⟩] :=
  refdef_emission Option.none ">" "_" "-"
    [⟨"b", "http://b", Option.none⟩, ⟨"a", "http://a", some "T"⟩] []
    (by decide) (by decide) (by decide)

end Cmarkfmt
